import Mathlib

/-!
# Verification of the medical-courier dashboard autosave core

Shallow embedding of the dashboard page (`src/unnamed/part_000`, with
`src/app/page.tsx` sharing the task-mutation code): the note cache
hydration (`loadNotesForTasks`), task creation (`addTask`), the realtime
note-event filter (`notesChannel` handler), and the debounced per-key
autosave state machine (`saveNote`, the autosave `useEffect`, and the
timer/in-flight registries).

JavaScript objects used as string-keyed maps are embedded as association
lists with set-or-replace update, which preserves key uniqueness and
insertion order exactly as JS object assignment does.  React's effect
semantics are embedded by running the autosave effect pass after every
transition that changes one of its dependencies (`draftByTask`,
`notesByTask`, `tasks`); transitions that change only `savingKeys` or
`errorMsg` do not re-run the effect, matching the dependency array in the
source.  Wall-clock time is abstracted away: "the debounce timer fires"
is an event that may occur only while that timer is armed, and "edits
closer together than the debounce window" are consecutive edit events
with no timer-fire event in between.
-/

namespace Dashboard

/-- The two co-owners (`type Owner` in the source, a two-value string union). -/
inductive Owner where
  | ownerA  -- "Co-Owner A (Ops/Compliance)"
  | ownerB  -- "Co-Owner B (Sales/Finance)"
deriving DecidableEq, Repr

/-- The string value backing each `Owner` member in the source. -/
def ownerText : Owner → String
  | .ownerA => "Co-Owner A (Ops/Compliance)"
  | .ownerB => "Co-Owner B (Sales/Finance)"

/-- `const ALL_OWNERS: Owner[] = [OWNER_A, OWNER_B]`. -/
def ALL_OWNERS : List Owner := [.ownerA, .ownerB]

/-- `type Status = "Pending" | "In Progress" | "Completed"`. -/
inductive Status where
  | pending
  | inProgress
  | completed
deriving DecidableEq, Repr

/-- `type TaskRow` (fields used by the autosave core). -/
structure TaskRow where
  id : String
  week_number : Int
  owner : Owner
  description : String
  status : Status
deriving DecidableEq, Repr

/-- `type TaskNoteRow` as fetched from the `task_notes` table. -/
structure TaskNoteRow where
  id : String
  task_id : String
  owner : Owner
  note : String
  updated_at : String
deriving DecidableEq, Repr

/-- One entry of `notesByTask[taskId][owner]`:
`{ note: string; updated_at?: string; id?: string }`. -/
structure NoteCell where
  note : String
  updated_at : Option String
  id : Option String
deriving DecidableEq, Repr

/-! ## Association lists standing for JS objects used as maps

JS object assignment `m[k] = v` replaces the value when the key is
present (keeping its position) and appends the key otherwise; a JS object
never holds two entries with the same key.  `aset` reproduces exactly
that, and `aget` is property lookup (`m[k]`, `undefined` becoming
`none`). -/

/-- Property lookup `m[k]` on a JS object. -/
def aget {κ α : Type} [DecidableEq κ] (m : List (κ × α)) (k : κ) : Option α :=
  (m.find? (fun p => p.1 = k)).map (·.2)

/-- Property assignment `m[k] = v` on a JS object. -/
def aset {κ α : Type} [DecidableEq κ] (m : List (κ × α)) (k : κ) (v : α) :
    List (κ × α) :=
  if m.any (fun p => p.1 = k) then
    m.map (fun p => if p.1 = k then (k, v) else p)
  else
    m ++ [(k, v)]

/-- Number of entries of `m` carrying key `k` (to state "exactly one entry,
never duplicated"). -/
def countKey {κ α : Type} [DecidableEq κ] (m : List (κ × α)) (k : κ) : Nat :=
  (m.filter (fun p => p.1 = k)).length

/-- JavaScript `String.prototype.trim()`: strip whitespace from both ends
(defined on the character list so that it evaluates by kernel reduction;
Lean's own `String.trim` agrees but is not kernel-reducible). -/
def jsTrim (s : String) : String :=
  ⟨((s.data.dropWhile Char.isWhitespace).reverse.dropWhile
      Char.isWhitespace).reverse⟩

/-- `notesByTask`: taskId → owner → note cell. -/
abbrev NotesMap := List (String × List (Owner × NoteCell))

/-- `draftByTask`: taskId → owner → draft text. -/
abbrev DraftMap := List (String × List (Owner × String))

/-- The composite key `makeKey` builds; the source encodes it as the string
`taskId ++ "::" ++ owner`, which `makeKey_injective` below shows loses no
information, so the embedding keys its registries by the pair itself. -/
abbrev Key := String × Owner

/-- `const makeKey = (taskId, owner) => taskId + "::" + owner` (the string
actually used to index the timer and in-flight registries). -/
def makeKeyString (taskId : String) (owner : Owner) : String :=
  taskId ++ "::" ++ ownerText owner

/-- `draftByTask?.[taskId]?.[owner] ?? ""`. -/
def getDraft (m : DraftMap) (taskId : String) (owner : Owner) : String :=
  (aget ((aget m taskId).getD []) owner).getD ""

/-- `notesByTask?.[taskId]?.[owner]` (the cell, possibly absent). -/
def getCell (m : NotesMap) (taskId : String) (owner : Owner) : Option NoteCell :=
  aget ((aget m taskId).getD []) owner

/-- `notesByTask?.[taskId]?.[owner]?.note ?? ""`. -/
def getSavedNote (m : NotesMap) (taskId : String) (owner : Owner) : String :=
  ((getCell m taskId owner).map (·.note)).getD ""

/-! ## Note cache hydration: `loadNotesForTasks` -/

/-- Result of `loadNotesForTasks`: the two rebuilt caches plus whether the
`task_notes` fetch was reached (the function returns before the fetch when
`taskIds.length === 0`). -/
structure HydrationResult where
  notes : NotesMap
  drafts : DraftMap
  didFetch : Bool
deriving DecidableEq, Repr

/-- One iteration of the first loop of `loadNotesForTasks`:
`nextNotes[taskId] = {}; nextDraft[taskId] = {};` then, for each owner,
an entry with an empty note, no timestamp and no id, the draft likewise
empty. -/
def initDefaultsStep (acc : NotesMap × DraftMap) (taskId : String) :
    NotesMap × DraftMap :=
  let notes1 := aset acc.1 taskId []
  let drafts1 := aset acc.2 taskId []
  ALL_OWNERS.foldl
    (fun (acc : NotesMap × DraftMap) o =>
      (aset acc.1 taskId (aset ((aget acc.1 taskId).getD []) o
          ⟨"", none, none⟩),
       aset acc.2 taskId (aset ((aget acc.2 taskId).getD []) o "")))
    (notes1, drafts1)

/-- The first loop of `loadNotesForTasks` over all visible task ids. -/
def initNoteDefaults (taskIds : List String) : NotesMap × DraftMap :=
  taskIds.foldl initDefaultsStep ([], [])

/-- One iteration of the second loop of `loadNotesForTasks`: a fetched row
overwrites the default for its pair, a row whose task id got no default
is skipped (`if (!nextNotes[r.task_id]) continue`). -/
def applyNoteRow (acc : NotesMap × DraftMap) (r : TaskNoteRow) :
    NotesMap × DraftMap :=
  match aget acc.1 r.task_id with
  | none => acc
  | some inner =>
    (aset acc.1 r.task_id
       (aset inner r.owner ⟨r.note, some r.updated_at, some r.id⟩),
     aset acc.2 r.task_id
       (aset ((aget acc.2 r.task_id).getD []) r.owner r.note))

/-- The second loop of `loadNotesForTasks` over all fetched rows. -/
def applyNoteRows (acc : NotesMap × DraftMap) (rows : List TaskNoteRow) :
    NotesMap × DraftMap :=
  rows.foldl applyNoteRow acc

/-- `loadNotesForTasks(taskIds)` (success path), with the fetched
`task_notes` rows supplied as input.  An empty id set resets both caches
without reaching the fetch. -/
def loadNotesForTasks (taskIds : List String) (rows : List TaskNoteRow) :
    HydrationResult :=
  if taskIds = [] then
    ⟨[], [], false⟩
  else
    let built := applyNoteRows (initNoteDefaults taskIds) rows
    ⟨built.1, built.2, true⟩

/-! ## Task creation: `addTask` -/

/-- The slice of page state `addTask` reads and writes. -/
structure PageState where
  selectedWeek : Option Int
  newOwner : Owner
  newDesc : String
  tasks : List TaskRow
  errorMsg : String
deriving DecidableEq, Repr

/-- The row `addTask` sends to `supabase.from("tasks").insert(...)`. -/
structure TaskInsert where
  week_number : Int
  owner : Owner
  description : String
  status : Status
deriving DecidableEq, Repr

/-- JS truthiness of `selectedWeek : number | null`
(`!selectedWeek` is true for `null` and for `0`). -/
def weekTruthy : Option Int → Bool
  | none => false
  | some w => w != 0

/-- `addTask` from `src/unnamed/part_000` lines 272-294 (identical in
`src/app/page.tsx`).  Returns the updated page state and the insert that
was issued, if any; `insertOk` is the outcome of the remote insert. -/
def addTask (st : PageState) (insertOk : Bool) : PageState × Option TaskInsert :=
  if !(weekTruthy st.selectedWeek) then (st, none)
  else
    let desc := jsTrim st.newDesc
    if desc = "" then (st, none)
    else
      let st := { st with errorMsg := "" }
      let ins : TaskInsert :=
        ⟨st.selectedWeek.getD 0, st.newOwner, desc, .pending⟩
      if insertOk then
        ({ st with newDesc := "" }, some ins)
      else
        ({ st with errorMsg := "Failed to add task" }, some ins)

/-! ## Realtime note-event filter (`notesChannel` handler) -/

/-- The payload of a `postgres_changes` event on `task_notes`: `new` and
`old` records, either possibly absent. -/
structure NotePayload where
  newRow : Option TaskNoteRow
  oldRow : Option TaskNoteRow
deriving DecidableEq, Repr

/-- `payload?.new?.task_id ?? payload?.old?.task_id`. -/
def eventTaskId (p : NotePayload) : Option String :=
  match p.newRow with
  | some r => some r.task_id
  | none => p.oldRow.map (·.task_id)

/-- The guard `if (taskId && taskIdSetRef.current.has(taskId))`: note that
JS truthiness makes the empty-string task id fail the guard. -/
def noteEventTriggers (p : NotePayload) (taskIdSet : List String) : Bool :=
  match eventTaskId p with
  | none => false
  | some tid => tid ≠ "" && taskIdSet.contains tid

/-- The `notesChannel` callback: rehydrate the whole visible note set when
the guard passes, otherwise leave every piece of state untouched. -/
def handleNoteEvent (p : NotePayload) (taskIdSet : List String)
    (notes : NotesMap) (drafts : DraftMap) (rows : List TaskNoteRow) :
    NotesMap × DraftMap × Bool :=
  if noteEventTriggers p taskIdSet then
    let h := loadNotesForTasks taskIdSet rows
    (h.notes, h.drafts, true)
  else
    (notes, drafts, false)

/-! ## The autosave state machine

The event loop of the dashboard page, restricted to the pieces the
autosave core touches.  `timers` models `autosaveTimersRef` (live,
uncancelled timeouts only: the effect cleanup clears every pending
timeout before the effect re-runs, so cancelled handles never fire);
each armed timer carries the `draftByTask`/`notesByTask` objects its
callback closed over when it was armed.  `inFlight` models
`autosaveInFlightRef`, `pending` the upserts issued and not yet
completed (each with its trimmed payload), `store` the remote
`task_notes` table, and `writeLog` the sequence of upsert requests
actually issued. -/

/-- The closure state captured by a debounce timer callback. -/
structure TimerCb where
  capturedDraft : DraftMap
  capturedNotes : NotesMap
deriving DecidableEq, Repr

/-- Dashboard page state visible to the autosave core.  The remote
`task_notes` table is modelled as an association list keyed by
(task id, owner) — its uniqueness constraint on that pair is what the
upsert's `onConflict` targets — holding the stored note text. -/
structure Sys where
  tasks : List TaskRow
  notesByTask : NotesMap
  draftByTask : DraftMap
  savingKeys : List (Key × Bool)
  inFlight : List Key
  timers : List (Key × TimerCb)
  pending : List (Key × String)
  store : List (Key × String)
  writeLog : List (Key × String)
  errorMsg : String
deriving DecidableEq, Repr

/-- The body of the autosave `useEffect` for one (task, owner) pair:
skip when `draft === saved`, otherwise replace the key's timer with a
fresh one capturing the current caches. -/
def armKey (s : Sys) (acc : List (Key × TimerCb)) (taskId : String)
    (o : Owner) : List (Key × TimerCb) :=
  let draft := getDraft s.draftByTask taskId o
  let saved := getSavedNote s.notesByTask taskId o
  if draft = saved then acc
  else aset acc (taskId, o) ⟨s.draftByTask, s.notesByTask⟩

/-- The autosave `useEffect` run: the cleanup of the previous run has
cleared every pending timeout, then the body loops over
`tasks × ALL_OWNERS` arming dirty keys. -/
def armAll (s : Sys) : List (Key × TimerCb) :=
  s.tasks.foldl
    (fun acc task => ALL_OWNERS.foldl (fun acc o => armKey s acc task.id o) acc)
    []

/-- React re-running the autosave effect after a render whose
`draftByTask`/`notesByTask`/`tasks` dependencies changed. -/
def effectPass (s : Sys) : Sys :=
  { s with timers := armAll s }

/-- Typing in a note textarea: `setDraftByTask` with a spread update for
the one (task, owner) pair, after which the effect (whose deps include
`draftByTask`) re-runs. -/
def editDraft (s : Sys) (taskId : String) (owner : Owner) (text : String) :
    Sys :=
  effectPass
    { s with
        draftByTask :=
          aset s.draftByTask taskId
            (aset ((aget s.draftByTask taskId).getD []) owner text) }

/-- `saveNote(taskId, owner, noteOverride?)` up to its `await`: clear the
error banner, trim the draft, drop the request if the key is already in
flight, otherwise mark the key in flight and saving and issue the upsert.
Changes no effect dependency, so no effect pass follows. -/
def saveNoteBegin (s : Sys) (taskId : String) (owner : Owner)
    (noteOverride : Option String) : Sys :=
  let s := { s with errorMsg := "" }
  let raw := noteOverride.getD (getDraft s.draftByTask taskId owner)
  let note := jsTrim raw
  let key : Key := (taskId, owner)
  if key ∈ s.inFlight then s
  else
    { s with
        inFlight := key :: s.inFlight,
        savingKeys := aset s.savingKeys key true,
        pending := s.pending ++ [(key, note)],
        writeLog := s.writeLog ++ [(key, note)] }

/-- `upsert(..., { onConflict: "task_id,owner" })` on the remote table:
update the existing row for the pair in place, or insert one — which is
exactly JS-object-style assignment on the pair-keyed table. -/
def upsertStore (store : List (Key × String)) (taskId : String)
    (owner : Owner) (note : String) : List (Key × String) :=
  aset store (taskId, owner) note

/-- The optimistic cache update on save success:
`next[taskId] = { ...(next[taskId] ?? {}) }; next[taskId][owner] =
{ note, updated_at: new Date().toISOString() }` — note the replacement
cell carries no `id`. -/
def optimisticUpdate (m : NotesMap) (taskId : String) (owner : Owner)
    (note : String) (now : String) : NotesMap :=
  aset m taskId
    (aset ((aget m taskId).getD []) owner ⟨note, some now, none⟩)

/-- `saveNote` resuming after its `await`: release the in-flight marker
and the saving flag; on failure surface the error and stop (no cache
mutation, hence no effect dependency changes and no effect pass); on
success the store reflects the upsert, the cache is updated
optimistically, and the effect re-runs since `notesByTask` changed.
`now` is the clock value `new Date().toISOString()` reads at that
moment. -/
def saveNoteComplete (s : Sys) (key : Key) (note : String) (ok : Bool)
    (now : String) : Sys :=
  let s := { s with
      pending := s.pending.erase (key, note),
      inFlight := s.inFlight.erase key,
      savingKeys := aset s.savingKeys key false }
  if ok then
    effectPass
      { s with
          store := upsertStore s.store key.1 key.2 note,
          notesByTask := optimisticUpdate s.notesByTask key.1 key.2 note now }
  else
    { s with errorMsg := "Failed to save note" }

/-- A debounce timer firing: the timeout leaves the live set, the callback
re-reads draft and saved through the maps it captured and calls
`saveNote` with the draft as override only when they differ. -/
def timerFire (s : Sys) (key : Key) : Sys :=
  match aget s.timers key with
  | none => s
  | some cb =>
    let s := { s with timers := s.timers.filter (fun p => p.1 ≠ key) }
    let latestDraft := getDraft cb.capturedDraft key.1 key.2
    let latestSaved := getSavedNote cb.capturedNotes key.1 key.2
    if latestDraft ≠ latestSaved then
      saveNoteBegin s key.1 key.2 (some latestDraft)
    else s

/-- The events of the single-threaded event loop. -/
inductive Step : Sys → Sys → Prop where
  | edit (s : Sys) (taskId : String) (owner : Owner) (text : String) :
      Step s (editDraft s taskId owner text)
  | fire (s : Sys) (key : Key) :
      Step s (timerFire s key)
  | userSave (s : Sys) (taskId : String) (owner : Owner) :
      Step s (saveNoteBegin s taskId owner none)
  | complete (s : Sys) (key : Key) (note : String) (ok : Bool) (now : String)
      (h : (key, note) ∈ s.pending) :
      Step s (saveNoteComplete s key note ok now)

/-- The state the page starts from (before any autosave activity) once a
task list is shown: empty registries, no pending writes. -/
def initSys (tasks : List TaskRow) (notes : NotesMap) (drafts : DraftMap)
    (store : List (Key × String)) : Sys :=
  { tasks := tasks
    notesByTask := notes
    draftByTask := drafts
    savingKeys := []
    inFlight := []
    timers := []
    pending := []
    store := store
    writeLog := []
    errorMsg := "" }

/-- The state-machine invariant: pending upserts have pairwise-distinct
keys, every pending key is marked in flight, the in-flight set has no
duplicates, and every armed timer's captured caches are the current ones
(each dependency change re-runs the effect, which re-arms with fresh
captures). -/
structure SysInv (s : Sys) : Prop where
  pending_nodup : (s.pending.map (·.1)).Nodup
  pending_inFlight : ∀ p ∈ s.pending, p.1 ∈ s.inFlight
  inFlight_nodup : s.inFlight.Nodup
  timers_current : ∀ k cb, aget s.timers k = some cb →
    cb.capturedDraft = s.draftByTask ∧ cb.capturedNotes = s.notesByTask

/-- Number of rows of the remote `task_notes` table for one
(task id, owner) pair — the storage uniqueness constraint says this never
exceeds one. -/
def countStoreKey (store : List (Key × String)) (k : Key) : Nat :=
  countKey store k

/-- The note text stored for a (task id, owner) pair, if a row exists. -/
def storeLookup (store : List (Key × String)) (k : Key) : Option String :=
  aget store k

/-- A sequence of edits to one (task id, owner) key with no timer firing
in between — i.e. each keystroke lands within the debounce window of the
previous one. -/
def runEdits (s : Sys) (taskId : String) (owner : Owner)
    (texts : List String) : Sys :=
  texts.foldl (fun s text => editDraft s taskId owner text) s

/-- Shape invariant of the note-cache build in `loadNotesForTasks`: the
outer object has exactly one entry for each visible task id and none for
any other id, and each inner object has exactly one entry per owner. -/
structure HydAcc (ids : List String) (acc : NotesMap × DraftMap) : Prop where
  pres : ∀ t, (aget acc.1 t).isSome = true ↔ t ∈ ids
  outer_count : ∀ t, countKey acc.1 t = if t ∈ ids then 1 else 0
  inner_count : ∀ t, t ∈ ids → ∀ o, countKey ((aget acc.1 t).getD []) o = 1

/-! ## Lemmas about the JS-object operations -/

theorem aget_aset_self {κ α : Type} [DecidableEq κ] (m : List (κ × α))
    (k : κ) (v : α) : aget (aset m k v) k = some v := by
  induction m with
  | nil => simp [aset, aget]
  | cons p t ih =>
    by_cases hp : p.1 = k
    · simp [aset, aget, hp]
    · by_cases ht : t.any (fun q => decide (q.1 = k))
      · simp [aset, aget, hp, ht] at ih ⊢
        exact ih
      · simp [aset, aget, hp, ht] at ih ⊢
        exact ih

theorem aget_map_replace_ne {κ α : Type} [DecidableEq κ] (m : List (κ × α))
    (k k' : κ) (v : α) (h : k' ≠ k) :
    aget (m.map (fun p => if p.1 = k then (k, v) else p)) k' = aget m k' := by
  induction m with
  | nil => rfl
  | cons p t ih =>
    by_cases hp : p.1 = k
    · simp [aget, hp, Ne.symm h] at ih ⊢
      exact ih
    · by_cases hp' : p.1 = k'
      · simp [aget, hp, hp', h]
      · simp [aget, hp, hp'] at ih ⊢
        exact ih

theorem aget_append_single_ne {κ α : Type} [DecidableEq κ] (m : List (κ × α))
    (k k' : κ) (v : α) (h : k' ≠ k) :
    aget (m ++ [(k, v)]) k' = aget m k' := by
  induction m with
  | nil => simp [aget, Ne.symm h]
  | cons p t ih =>
    by_cases hp : p.1 = k'
    · simp [aget, hp]
    · simp [aget, hp] at ih ⊢
      exact ih

theorem aget_aset_ne {κ α : Type} [DecidableEq κ] (m : List (κ × α))
    (k k' : κ) (v : α) (h : k' ≠ k) : aget (aset m k v) k' = aget m k' := by
  unfold aset
  by_cases hany : m.any (fun p => decide (p.1 = k)) = true
  · simp only [hany, if_true]
    exact aget_map_replace_ne m k k' v h
  · simp only [hany, if_false, Bool.false_eq_true]
    exact aget_append_single_ne m k k' v h

theorem aget_aset {κ α : Type} [DecidableEq κ] (m : List (κ × α))
    (k k' : κ) (v : α) :
    aget (aset m k v) k' = if k' = k then some v else aget m k' := by
  by_cases h : k' = k
  · subst h; simp [aget_aset_self]
  · simp [h, aget_aset_ne m k k' v h]

theorem any_key_map_replace {κ α : Type} [DecidableEq κ] (m : List (κ × α))
    (k k' : κ) (v : α) :
    ((m.map (fun p => if p.1 = k then (k, v) else p)).any
        (fun p => decide (p.1 = k'))) =
      m.any (fun p => decide (p.1 = k')) := by
  induction m with
  | nil => rfl
  | cons p t ih =>
    by_cases hp : p.1 = k
    · simp [hp, ih]
    · simp [hp, ih]

theorem map_replace_replace {κ α : Type} [DecidableEq κ] (m : List (κ × α))
    (k : κ) (x y : α) :
    ((m.map (fun p => if p.1 = k then (k, x) else p)).map
        (fun p => if p.1 = k then (k, y) else p)) =
      m.map (fun p => if p.1 = k then (k, y) else p) := by
  rw [List.map_map]
  apply List.map_congr_left
  intro p _
  by_cases hp : p.1 = k <;> simp [hp]

theorem countKey_append {κ α : Type} [DecidableEq κ] (a b : List (κ × α))
    (k : κ) : countKey (a ++ b) k = countKey a k + countKey b k := by
  simp [countKey, List.filter_append]

theorem map_replace_of_not_any {κ α : Type} [DecidableEq κ] (m : List (κ × α))
    (k : κ) (v : α) (h : ¬ m.any (fun p => decide (p.1 = k)) = true) :
    m.map (fun p => if p.1 = k then (k, v) else p) = m := by
  revert h
  induction m with
  | nil => intro _; rfl
  | cons p t ih =>
    intro h
    have hp : ¬ p.1 = k := fun hk => h (by simp [hk])
    have ht : ¬ t.any (fun q => decide (q.1 = k)) = true :=
      fun hk => h (by simp [hk])
    simp [hp, ih ht]

theorem aset_aset {κ α : Type} [DecidableEq κ] (m : List (κ × α))
    (k : κ) (x y : α) : aset (aset m k x) k y = aset m k y := by
  unfold aset
  by_cases hany : m.any (fun p => decide (p.1 = k)) = true
  · simp only [hany, if_true, any_key_map_replace, map_replace_replace]
  · simp only [hany, if_false, Bool.false_eq_true]
    have h2 : ((m ++ [(k, x)]).any (fun p => decide (p.1 = k))) = true := by
      simp
    simp only [h2, if_true, List.map_append]
    congr 1
    · exact map_replace_of_not_any m k y hany
    · simp

theorem countKey_map_replace {κ α : Type} [DecidableEq κ] (m : List (κ × α))
    (k k' : κ) (v : α) :
    countKey (m.map (fun p => if p.1 = k then (k, v) else p)) k' =
      countKey m k' := by
  induction m with
  | nil => rfl
  | cons p t ih =>
    by_cases hp : p.1 = k
    · by_cases hk : k = k'
      · subst hk
        simp [countKey, hp] at ih ⊢
        omega
      · have hp' : ¬ p.1 = k' := by rw [hp]; exact hk
        simp [countKey, hp, hk, hp'] at ih ⊢
        exact ih
    · simp [countKey, hp] at ih ⊢
      by_cases hp' : p.1 = k' <;> simp [hp', ih]

theorem countKey_aset_self {κ α : Type} [DecidableEq κ] (m : List (κ × α))
    (k : κ) (v : α) : countKey (aset m k v) k = max (countKey m k) 1 := by
  unfold aset
  by_cases hany : m.any (fun p => decide (p.1 = k)) = true
  · simp only [hany, if_true, countKey_map_replace]
    have hne : countKey m k ≠ 0 := by
      obtain ⟨p, hp, hk⟩ := List.any_eq_true.mp hany
      intro h0
      rw [countKey, List.length_eq_zero, List.filter_eq_nil_iff] at h0
      exact h0 p hp hk
    omega
  · have h0 : countKey m k = 0 := by
      rw [countKey, List.length_eq_zero, List.filter_eq_nil_iff]
      intro p hp
      simp only [decide_eq_true_eq]
      intro hk
      exact hany (List.any_eq_true.mpr ⟨p, hp, by simp [hk]⟩)
    simp only [hany, if_false, Bool.false_eq_true]
    rw [countKey_append, h0]
    simp [countKey]

theorem countKey_aset_ne {κ α : Type} [DecidableEq κ] (m : List (κ × α))
    (k k' : κ) (v : α) (h : k' ≠ k) :
    countKey (aset m k v) k' = countKey m k' := by
  unfold aset
  by_cases hany : m.any (fun p => decide (p.1 = k)) = true
  · simp only [hany, if_true, countKey_map_replace]
  · simp only [hany, if_false, Bool.false_eq_true, countKey, List.filter_append]
    simp [Ne.symm h]

/-! ## The composite key loses no information -/

theorem makeKeyString_injective (t1 t2 : String) (o1 o2 : Owner)
    (h : makeKeyString t1 o1 = makeKeyString t2 o2) : t1 = t2 ∧ o1 = o2 := by
  have h2 := congrArg (fun s => s.data.reverse) h
  simp only [makeKeyString] at h2
  cases o1 <;> cases o2 <;>
    simp [ownerText, String.data_append] at h2 <;>
    try exact ⟨String.ext h2, rfl⟩

/-! ## Hydration lemmas -/

theorem initDefaultsStep_eq (acc : NotesMap × DraftMap) (t : String) :
    initDefaultsStep acc t =
      (aset acc.1 t [(Owner.ownerA, ⟨"", none, none⟩),
                     (Owner.ownerB, ⟨"", none, none⟩)],
       aset acc.2 t [(Owner.ownerA, ""), (Owner.ownerB, "")]) := by
  simp only [initDefaultsStep, ALL_OWNERS, List.foldl_cons, List.foldl_nil,
    aget_aset_self, Option.getD_some, aset_aset]
  rfl

theorem initDefaults_fold_notes (ids : List String)
    (acc : NotesMap × DraftMap) (t : String) :
    aget (ids.foldl initDefaultsStep acc).1 t =
      if t ∈ ids then
        some [(Owner.ownerA, ⟨"", none, none⟩), (Owner.ownerB, ⟨"", none, none⟩)]
      else aget acc.1 t := by
  induction ids generalizing acc with
  | nil => simp
  | cons u rest ih =>
    simp only [List.foldl_cons, ih, initDefaultsStep_eq]
    by_cases ht : t ∈ rest
    · simp [ht]
    · by_cases hu : t = u
      · subst hu; simp [ht, aget_aset_self]
      · simp [ht, hu, aget_aset_ne _ _ _ _ hu]

theorem initDefaults_fold_drafts (ids : List String)
    (acc : NotesMap × DraftMap) (t : String) :
    aget (ids.foldl initDefaultsStep acc).2 t =
      if t ∈ ids then some [(Owner.ownerA, ""), (Owner.ownerB, "")]
      else aget acc.2 t := by
  induction ids generalizing acc with
  | nil => simp
  | cons u rest ih =>
    simp only [List.foldl_cons, ih, initDefaultsStep_eq]
    by_cases ht : t ∈ rest
    · simp [ht]
    · by_cases hu : t = u
      · subst hu; simp [ht, aget_aset_self]
      · simp [ht, hu, aget_aset_ne _ _ _ _ hu]

theorem initDefaults_fold_count (ids : List String)
    (acc : NotesMap × DraftMap) (t : String) :
    countKey (ids.foldl initDefaultsStep acc).1 t =
      if t ∈ ids then max (countKey acc.1 t) 1 else countKey acc.1 t := by
  induction ids generalizing acc with
  | nil => simp
  | cons u rest ih =>
    simp only [List.foldl_cons, ih, initDefaultsStep_eq]
    by_cases hu : t = u
    · subst hu
      rw [countKey_aset_self]
      by_cases ht : t ∈ rest <;> simp [ht]
    · rw [countKey_aset_ne acc.1 u t _ hu]
      by_cases ht : t ∈ rest <;> simp [ht, hu]

theorem aget_applyNoteRow_isSome (acc : NotesMap × DraftMap)
    (r : TaskNoteRow) (t : String) :
    (aget (applyNoteRow acc r).1 t).isSome = (aget acc.1 t).isSome := by
  unfold applyNoteRow
  cases h : aget acc.1 r.task_id with
  | none => rfl
  | some inner =>
    by_cases ht : t = r.task_id
    · subst ht; simp [aget_aset_self, h]
    · simp [aget_aset_ne _ _ _ _ ht]

theorem getCell_applyNoteRow_ne (acc : NotesMap × DraftMap)
    (r : TaskNoteRow) (t : String) (o : Owner)
    (hne : ¬(r.task_id = t ∧ r.owner = o)) :
    getCell (applyNoteRow acc r).1 t o = getCell acc.1 t o := by
  unfold applyNoteRow getCell
  cases h : aget acc.1 r.task_id with
  | none => rfl
  | some inner =>
    by_cases ht : t = r.task_id
    · subst ht
      have ho : o ≠ r.owner := fun he => hne ⟨rfl, he.symm⟩
      simp [aget_aset_self, h, aget_aset_ne _ _ _ _ ho]
    · simp [aget_aset_ne _ _ _ _ ht]

theorem getCell_applyNoteRow_self (acc : NotesMap × DraftMap)
    (r : TaskNoteRow) (hp : (aget acc.1 r.task_id).isSome = true) :
    getCell (applyNoteRow acc r).1 r.task_id r.owner =
      some ⟨r.note, some r.updated_at, some r.id⟩ := by
  unfold applyNoteRow getCell
  cases h : aget acc.1 r.task_id with
  | none => rw [h] at hp; simp at hp
  | some inner => simp [aget_aset_self]

theorem getCell_applyNoteRows_nomatch (rows : List TaskNoteRow)
    (acc : NotesMap × DraftMap) (t : String) (o : Owner)
    (h : ∀ r ∈ rows, ¬(r.task_id = t ∧ r.owner = o)) :
    getCell (applyNoteRows acc rows).1 t o = getCell acc.1 t o := by
  induction rows generalizing acc with
  | nil => rfl
  | cons r rest ih =>
    simp only [applyNoteRows, List.foldl_cons] at ih ⊢
    rw [ih _ (fun r' hr' => h r' (List.mem_cons_of_mem _ hr'))]
    exact getCell_applyNoteRow_ne acc r t o (h r (List.mem_cons_self _ _))

theorem getCell_applyNoteRows (rows : List TaskNoteRow)
    (acc : NotesMap × DraftMap) (t : String) (o : Owner)
    (hp : (aget acc.1 t).isSome = true)
    (hd : (rows.map (fun r => (r.task_id, r.owner))).Nodup) :
    getCell (applyNoteRows acc rows).1 t o =
      match rows.find? (fun r => r.task_id = t ∧ r.owner = o) with
      | some r => some ⟨r.note, some r.updated_at, some r.id⟩
      | none => getCell acc.1 t o := by
  induction rows generalizing acc with
  | nil => rfl
  | cons r rest ih =>
    rw [List.map_cons, List.nodup_cons] at hd
    by_cases hm : r.task_id = t ∧ r.owner = o
    · obtain ⟨h1, h2⟩ := hm
      have hnomatch : ∀ r' ∈ rest, ¬(r'.task_id = t ∧ r'.owner = o) := by
        intro r' hr' hm'
        apply hd.1
        rw [List.mem_map]
        exact ⟨r', hr', by rw [hm'.1, hm'.2, h1, h2]⟩
      simp only [applyNoteRows, List.foldl_cons]
      have hstep :
          getCell (rest.foldl applyNoteRow (applyNoteRow acc r)).1 t o =
            getCell (applyNoteRow acc r).1 t o :=
        getCell_applyNoteRows_nomatch rest (applyNoteRow acc r) t o hnomatch
      rw [hstep]
      have hp' : (aget acc.1 r.task_id).isSome = true := by rw [h1]; exact hp
      have hself := getCell_applyNoteRow_self acc r hp'
      rw [h1, h2] at hself
      rw [hself]
      simp [List.find?, h1, h2]
    · have hp' : (aget (applyNoteRow acc r).1 t).isSome = true := by
        rw [aget_applyNoteRow_isSome]; exact hp
      simp only [applyNoteRows, List.foldl_cons] at ih ⊢
      rw [ih (applyNoteRow acc r) hp' hd.2]
      have hne := getCell_applyNoteRow_ne acc r t o hm
      simp only [List.find?]
      rw [show (decide (r.task_id = t ∧ r.owner = o)) = false by simp [hm]]
      cases rest.find? (fun r => r.task_id = t ∧ r.owner = o) with
      | none => simp [hne]
      | some r' => rfl

theorem mirror_applyNoteRow (acc : NotesMap × DraftMap) (r : TaskNoteRow)
    (h : ∀ t o, getDraft acc.2 t o = getSavedNote acc.1 t o) :
    ∀ t o, getDraft (applyNoteRow acc r).2 t o =
      getSavedNote (applyNoteRow acc r).1 t o := by
  intro t o
  unfold applyNoteRow
  cases hq : aget acc.1 r.task_id with
  | none => exact h t o
  | some inner =>
    by_cases ht : t = r.task_id
    · subst ht
      by_cases ho : o = r.owner
      · subst ho
        simp [getDraft, getSavedNote, getCell, aget_aset_self]
      · simp only [getDraft, getSavedNote, getCell, aget_aset_self,
          Option.getD_some, aget_aset_ne _ _ _ _ ho]
        have hmir := h r.task_id o
        simp only [getDraft, getSavedNote, getCell, hq, Option.getD_some]
          at hmir
        exact hmir
    · simp only [getDraft, getSavedNote, getCell,
        aget_aset_ne _ _ _ _ ht]
      exact h t o

theorem mirror_applyNoteRows (rows : List TaskNoteRow)
    (acc : NotesMap × DraftMap)
    (h : ∀ t o, getDraft acc.2 t o = getSavedNote acc.1 t o) :
    ∀ t o, getDraft (applyNoteRows acc rows).2 t o =
      getSavedNote (applyNoteRows acc rows).1 t o := by
  induction rows generalizing acc with
  | nil => exact h
  | cons r rest ih =>
    simp only [applyNoteRows, List.foldl_cons] at ih ⊢
    exact ih (applyNoteRow acc r) (mirror_applyNoteRow acc r h)

theorem mirror_initNoteDefaults (ids : List String) :
    ∀ t o, getDraft (initNoteDefaults ids).2 t o =
      getSavedNote (initNoteDefaults ids).1 t o := by
  intro t o
  have h1 := initDefaults_fold_notes ids ([], []) t
  have h2 := initDefaults_fold_drafts ids ([], []) t
  by_cases ht : t ∈ ids
  · simp only [ht, if_true] at h1 h2
    simp only [getDraft, getSavedNote, getCell, initNoteDefaults, h1, h2,
      Option.getD_some]
    cases o <;> rfl
  · simp only [ht, if_false] at h1 h2
    simp only [getDraft, getSavedNote, getCell, initNoteDefaults, h1, h2]
    rfl

theorem countKey_pos_of_aget {κ α : Type} [DecidableEq κ]
    (m : List (κ × α)) (k : κ) (v : α) (h : aget m k = some v) :
    1 ≤ countKey m k := by
  unfold aget at h
  cases hf : m.find? (fun p => p.1 = k) with
  | none => rw [hf] at h; simp at h
  | some p =>
    have hmem := List.mem_of_find?_eq_some hf
    have hkey : p.1 = k := by
      have := List.find?_some hf
      exact of_decide_eq_true this
    rw [countKey]
    have : p ∈ m.filter (fun p => p.1 = k) :=
      List.mem_filter.mpr ⟨hmem, by simp [hkey]⟩
    exact List.length_pos.mpr (List.ne_nil_of_mem this)

theorem hydAcc_initNoteDefaults (ids : List String) :
    HydAcc ids (initNoteDefaults ids) := by
  refine ⟨?_, ?_, ?_⟩
  · intro t
    rw [initNoteDefaults, initDefaults_fold_notes]
    by_cases ht : t ∈ ids <;> simp [ht, aget]
  · intro t
    rw [initNoteDefaults, initDefaults_fold_count]
    by_cases ht : t ∈ ids <;> simp [ht, countKey]
  · intro t ht o
    rw [initNoteDefaults, initDefaults_fold_notes]
    simp only [ht, if_true, Option.getD_some]
    cases o <;> rfl

theorem hydAcc_applyNoteRow (ids : List String) (acc : NotesMap × DraftMap)
    (r : TaskNoteRow) (h : HydAcc ids acc) :
    HydAcc ids (applyNoteRow acc r) := by
  refine ⟨?_, ?_, ?_⟩
  · intro t
    rw [aget_applyNoteRow_isSome]
    exact h.pres t
  · intro t
    unfold applyNoteRow
    cases hq : aget acc.1 r.task_id with
    | none => exact h.outer_count t
    | some inner =>
      have hrmem : r.task_id ∈ ids := (h.pres r.task_id).mp (by simp [hq])
      by_cases ht : t = r.task_id
      · subst ht
        rw [countKey_aset_self, h.outer_count r.task_id]
        simp [hrmem]
      · rw [countKey_aset_ne acc.1 r.task_id t _ ht]
        exact h.outer_count t
  · intro t ht o
    unfold applyNoteRow
    cases hq : aget acc.1 r.task_id with
    | none => exact h.inner_count t ht o
    | some inner =>
      by_cases htr : t = r.task_id
      · subst htr
        rw [aget_aset_self]
        simp only [Option.getD_some]
        have hinner := h.inner_count r.task_id ht o
        rw [hq] at hinner
        simp only [Option.getD_some] at hinner
        by_cases ho : o = r.owner
        · subst ho
          rw [countKey_aset_self, hinner]
          omega
        · rw [countKey_aset_ne inner r.owner o _ ho]
          exact hinner
      · rw [aget_aset_ne acc.1 r.task_id t _ htr]
        exact h.inner_count t ht o

theorem hydAcc_applyNoteRows (ids : List String) (acc : NotesMap × DraftMap)
    (rows : List TaskNoteRow) (h : HydAcc ids acc) :
    HydAcc ids (applyNoteRows acc rows) := by
  induction rows generalizing acc with
  | nil => exact h
  | cons r rest ih =>
    simp only [applyNoteRows, List.foldl_cons] at ih ⊢
    exact ih (applyNoteRow acc r) (hydAcc_applyNoteRow ids acc r h)

/-! ## State machine lemmas -/

theorem aget_armKey (s : Sys) (acc : List (Key × TimerCb)) (u : String)
    (o' : Owner) (k : Key) :
    aget (armKey s acc u o') k =
      if k = (u, o') ∧
          getDraft s.draftByTask u o' ≠ getSavedNote s.notesByTask u o' then
        some ⟨s.draftByTask, s.notesByTask⟩
      else aget acc k := by
  unfold armKey
  by_cases hd : getDraft s.draftByTask u o' = getSavedNote s.notesByTask u o'
  · simp [hd]
  · by_cases hk : k = (u, o')
    · subst hk; simp [hd, aget_aset_self]
    · simp [hd, hk, aget_aset_ne _ _ _ _ hk]

theorem aget_armAll_fold (s : Sys) (tasks : List TaskRow)
    (acc : List (Key × TimerCb)) (k : Key) :
    aget (tasks.foldl (fun acc task =>
        ALL_OWNERS.foldl (fun acc o => armKey s acc task.id o) acc) acc) k =
      if (tasks.any (fun task => task.id = k.1)) = true ∧
          getDraft s.draftByTask k.1 k.2 ≠ getSavedNote s.notesByTask k.1 k.2
      then some ⟨s.draftByTask, s.notesByTask⟩
      else aget acc k := by
  induction tasks generalizing acc with
  | nil => simp
  | cons u rest ih =>
    simp only [List.foldl_cons, ih]
    rw [show ALL_OWNERS.foldl (fun acc o => armKey s acc u.id o) acc =
          armKey s (armKey s acc u.id .ownerA) u.id .ownerB from rfl]
    rw [aget_armKey, aget_armKey]
    obtain ⟨k1, k2⟩ := k
    simp only [List.any_cons, Bool.or_eq_true]
    by_cases hu : u.id = k1
    · subst hu
      cases k2 <;>
        by_cases hd : getDraft s.draftByTask u.id Owner.ownerA =
            getSavedNote s.notesByTask u.id Owner.ownerA <;>
        by_cases hd' : getDraft s.draftByTask u.id Owner.ownerB =
            getSavedNote s.notesByTask u.id Owner.ownerB <;>
        simp [hd, hd']
    · have h1 : ¬ ((k1, k2) = (u.id, Owner.ownerA)) := by
        intro he; exact hu (congrArg Prod.fst he).symm
      have h2 : ¬ ((k1, k2) = (u.id, Owner.ownerB)) := by
        intro he; exact hu (congrArg Prod.fst he).symm
      have h3 : ¬ (u.id = k1) := hu
      simp [h1, h2, h3]

theorem aget_effectPass_timers (s : Sys) (k : Key) :
    aget (effectPass s).timers k =
      if (s.tasks.any (fun task => task.id = k.1)) = true ∧
          getDraft s.draftByTask k.1 k.2 ≠ getSavedNote s.notesByTask k.1 k.2
      then some ⟨s.draftByTask, s.notesByTask⟩
      else none := by
  show aget (armAll s) k = _
  unfold armAll
  rw [aget_armAll_fold]
  rfl

theorem aget_cons {κ α : Type} [DecidableEq κ] (p : κ × α)
    (t : List (κ × α)) (k : κ) :
    aget (p :: t) k = if p.1 = k then some p.2 else aget t k := by
  by_cases hp : p.1 = k
  · rw [aget, List.find?_cons_of_pos _ (by simp [hp]), if_pos hp]
    rfl
  · rw [aget, List.find?_cons_of_neg _ (by simp [hp]), if_neg hp]
    rfl

theorem aget_filter_key_self {α : Type} (l : List (Key × α)) (k : Key) :
    aget (l.filter (fun p => p.1 ≠ k)) k = none := by
  induction l with
  | nil => rfl
  | cons p t ih =>
    rw [List.filter_cons]
    by_cases hp : p.1 = k
    · rw [if_neg (by simp [hp])]
      exact ih
    · rw [if_pos (by simp [hp]), aget_cons, if_neg hp]
      exact ih

theorem aget_filter_key_ne {α : Type} (l : List (Key × α)) (k k' : Key)
    (h : k' ≠ k) : aget (l.filter (fun p => p.1 ≠ k)) k' = aget l k' := by
  induction l with
  | nil => rfl
  | cons p t ih =>
    rw [List.filter_cons]
    by_cases hp : p.1 = k
    · have hp' : ¬ p.1 = k' := by rw [hp]; exact fun he => h he.symm
      rw [if_neg (by simp [hp]), ih, aget_cons, if_neg hp']
    · rw [if_pos (by simp [hp]), aget_cons, aget_cons, ih]

theorem saveNoteBegin_inFlight (s : Sys) (t : String) (o : Owner)
    (ov : Option String) (h : ((t, o) : Key) ∈ s.inFlight) :
    saveNoteBegin s t o ov = { s with errorMsg := "" } := by
  unfold saveNoteBegin
  simp [h]

theorem saveNoteBegin_not_inFlight (s : Sys) (t : String) (o : Owner)
    (ov : Option String) (h : ((t, o) : Key) ∉ s.inFlight) :
    saveNoteBegin s t o ov =
      { s with
          errorMsg := "",
          inFlight := (t, o) :: s.inFlight,
          savingKeys := aset s.savingKeys (t, o) true,
          pending := s.pending ++
            [((t, o), jsTrim (ov.getD (getDraft s.draftByTask t o)))],
          writeLog := s.writeLog ++
            [((t, o), jsTrim (ov.getD (getDraft s.draftByTask t o)))] } := by
  unfold saveNoteBegin
  simp [h]

theorem timerFire_none (s : Sys) (k : Key) (h : aget s.timers k = none) :
    timerFire s k = s := by
  unfold timerFire
  rw [h]

theorem timerFire_some (s : Sys) (k : Key) (cb : TimerCb)
    (ht : aget s.timers k = some cb)
    (hc : cb.capturedDraft = s.draftByTask ∧ cb.capturedNotes = s.notesByTask) :
    timerFire s k =
      if getDraft s.draftByTask k.1 k.2 ≠ getSavedNote s.notesByTask k.1 k.2
      then
        saveNoteBegin { s with timers := s.timers.filter (fun p => p.1 ≠ k) }
          k.1 k.2 (some (getDraft s.draftByTask k.1 k.2))
      else { s with timers := s.timers.filter (fun p => p.1 ≠ k) } := by
  unfold timerFire
  rw [ht]
  simp only [hc.1, hc.2]

theorem saveNoteComplete_fail (s : Sys) (k : Key) (note : String)
    (now : String) :
    saveNoteComplete s k note false now =
      { s with
          pending := s.pending.erase (k, note),
          inFlight := s.inFlight.erase k,
          savingKeys := aset s.savingKeys k false,
          errorMsg := "Failed to save note" } := rfl

theorem saveNoteComplete_ok (s : Sys) (k : Key) (note : String)
    (now : String) :
    saveNoteComplete s k note true now =
      effectPass
        { s with
            pending := s.pending.erase (k, note),
            inFlight := s.inFlight.erase k,
            savingKeys := aset s.savingKeys k false,
            store := upsertStore s.store k.1 k.2 note,
            notesByTask :=
              optimisticUpdate s.notesByTask k.1 k.2 note now } := rfl

/-! ## The state-machine invariant is established and preserved -/

theorem sysInv_effectPass (s : Sys) (h1 : (s.pending.map (·.1)).Nodup)
    (h2 : ∀ p ∈ s.pending, p.1 ∈ s.inFlight) (h3 : s.inFlight.Nodup) :
    SysInv (effectPass s) := by
  refine ⟨h1, h2, h3, ?_⟩
  intro k cb hcb
  rw [aget_effectPass_timers] at hcb
  split at hcb
  · cases hcb
    exact ⟨rfl, rfl⟩
  · cases hcb

theorem sysInv_saveNoteBegin (s : Sys) (t : String) (o : Owner)
    (ov : Option String) (h : SysInv s) : SysInv (saveNoteBegin s t o ov) := by
  by_cases hf : ((t, o) : Key) ∈ s.inFlight
  · rw [saveNoteBegin_inFlight s t o ov hf]
    exact ⟨h.pending_nodup, h.pending_inFlight, h.inFlight_nodup,
      h.timers_current⟩
  · rw [saveNoteBegin_not_inFlight s t o ov hf]
    refine ⟨?_, ?_, List.nodup_cons.mpr ⟨hf, h.inFlight_nodup⟩,
      h.timers_current⟩
    · rw [List.map_append, List.nodup_append]
      refine ⟨h.pending_nodup, by simp, ?_⟩
      intro a ha hb
      simp only [List.map_cons, List.map_nil, List.mem_singleton] at hb
      subst hb
      obtain ⟨p, hpm, hpa⟩ := List.mem_map.mp ha
      exact hf (hpa ▸ h.pending_inFlight p hpm)
    · intro p hpm
      rw [List.mem_append] at hpm
      cases hpm with
      | inl hpm => exact List.mem_cons_of_mem _ (h.pending_inFlight p hpm)
      | inr hpm =>
        simp only [List.mem_singleton] at hpm
        subst hpm
        exact List.mem_cons_self _ _

theorem sysInv_timerFire (s : Sys) (k : Key) (h : SysInv s) :
    SysInv (timerFire s k) := by
  cases ht : aget s.timers k with
  | none => rw [timerFire_none s k ht]; exact h
  | some cb =>
    have hc := h.timers_current k cb ht
    rw [timerFire_some s k cb ht hc]
    have h1 : SysInv { s with timers := s.timers.filter (fun p => p.1 ≠ k) } := by
      refine ⟨h.pending_nodup, h.pending_inFlight, h.inFlight_nodup, ?_⟩
      intro k' cb' hcb'
      by_cases hk : k' = k
      · rw [hk] at hcb'
        rw [show ({ s with timers := s.timers.filter (fun p => p.1 ≠ k) } :
            Sys).timers = s.timers.filter (fun p => p.1 ≠ k) from rfl,
          aget_filter_key_self] at hcb'
        cases hcb'
      · rw [show ({ s with timers := s.timers.filter (fun p => p.1 ≠ k) } :
            Sys).timers = s.timers.filter (fun p => p.1 ≠ k) from rfl,
          aget_filter_key_ne _ _ _ hk] at hcb'
        exact h.timers_current k' cb' hcb'
    split
    · exact sysInv_saveNoteBegin _ k.1 k.2 _ h1
    · exact h1

theorem sysInv_saveNoteComplete (s : Sys) (k : Key) (note : String)
    (ok : Bool) (now : String) (hp : (k, note) ∈ s.pending) (h : SysInv s) :
    SysInv (saveNoteComplete s k note ok now) := by
  have hkey_unique : ∀ p ∈ s.pending, p.1 = k → p = (k, note) := by
    intro p hpm hpk
    exact List.inj_on_of_nodup_map h.pending_nodup hpm hp (by rw [hpk])
  have hpend_nodup_list : s.pending.Nodup := h.pending_nodup.of_map
  have herase_keys : ∀ p ∈ s.pending.erase (k, note), p.1 ≠ k := by
    intro p hpm hpk
    have hpmem := hpend_nodup_list.mem_erase_iff.mp hpm
    exact hpmem.1 (hkey_unique p hpmem.2 hpk)
  have hkeys_nodup : ((s.pending.erase (k, note)).map (·.1)).Nodup :=
    h.pending_nodup.sublist ((s.pending.erase_sublist (k, note)).map _)
  have hin : ∀ p ∈ s.pending.erase (k, note), p.1 ∈ s.inFlight.erase k := by
    intro p hpm
    have hmem : p ∈ s.pending := (s.pending.erase_sublist (k, note)).subset hpm
    exact (List.mem_erase_of_ne (herase_keys p hpm)).mpr
      (h.pending_inFlight p hmem)
  have hfl : (s.inFlight.erase k).Nodup := h.inFlight_nodup.erase k
  cases ok with
  | false =>
    rw [saveNoteComplete_fail]
    exact ⟨hkeys_nodup, hin, hfl, h.timers_current⟩
  | true =>
    rw [saveNoteComplete_ok]
    exact sysInv_effectPass _ hkeys_nodup hin hfl

theorem sysInv_editDraft (s : Sys) (t : String) (o : Owner) (x : String)
    (h : SysInv s) : SysInv (editDraft s t o x) :=
  sysInv_effectPass _ h.pending_nodup h.pending_inFlight h.inFlight_nodup

theorem sysInv_step (s s' : Sys) (h : SysInv s) (hs : Step s s') :
    SysInv s' := by
  cases hs with
  | edit t o x => exact sysInv_editDraft s t o x h
  | fire k => exact sysInv_timerFire s k h
  | userSave t o => exact sysInv_saveNoteBegin s t o none h
  | complete k note ok now hp => exact sysInv_saveNoteComplete s k note ok now hp h

theorem sysInv_initSys (tasks : List TaskRow) (notes : NotesMap)
    (drafts : DraftMap) (store : List (Key × String)) :
    SysInv (initSys tasks notes drafts store) := by
  refine ⟨List.nodup_nil, ?_, List.nodup_nil, ?_⟩
  · intro p hp
    cases hp
  · intro k cb hcb
    simp [initSys, aget] at hcb

/-! ## Editing lemmas -/

theorem runEdits_preserves (s : Sys) (t : String) (o : Owner)
    (texts : List String) :
    (runEdits s t o texts).writeLog = s.writeLog ∧
    (runEdits s t o texts).notesByTask = s.notesByTask ∧
    (runEdits s t o texts).inFlight = s.inFlight ∧
    (runEdits s t o texts).pending = s.pending ∧
    (runEdits s t o texts).store = s.store ∧
    (runEdits s t o texts).tasks = s.tasks := by
  induction texts generalizing s with
  | nil => exact ⟨rfl, rfl, rfl, rfl, rfl, rfl⟩
  | cons x rest ih => exact ih (editDraft s t o x)

theorem getDraft_editDraft_self (s : Sys) (t : String) (o : Owner)
    (x : String) : getDraft (editDraft s t o x).draftByTask t o = x := by
  show getDraft
      (aset s.draftByTask t (aset ((aget s.draftByTask t).getD []) o x)) t o = x
  rw [getDraft, aget_aset_self, Option.getD_some, aget_aset_self,
    Option.getD_some]

theorem getSavedNote_editDraft (s : Sys) (t : String) (o : Owner) (x : String)
    (t' : String) (o' : Owner) :
    getSavedNote (editDraft s t o x).notesByTask t' o' =
      getSavedNote s.notesByTask t' o' := rfl

theorem runEdits_ne_nil (s : Sys) (t : String) (o : Owner)
    (texts : List String) (h : texts ≠ []) :
    runEdits s t o texts =
      editDraft (runEdits s t o texts.dropLast) t o (texts.getLast h) := by
  conv_lhs => rw [runEdits, ← List.dropLast_append_getLast h]
  rw [List.foldl_append]
  rfl

theorem aget_timers_editDraft (s : Sys) (t : String) (o : Owner) (x : String)
    (k : Key) :
    aget (editDraft s t o x).timers k =
      if (s.tasks.any (fun task => task.id = k.1)) = true ∧
          getDraft (editDraft s t o x).draftByTask k.1 k.2 ≠
            getSavedNote s.notesByTask k.1 k.2
      then some ⟨(editDraft s t o x).draftByTask, s.notesByTask⟩
      else none :=
  aget_effectPass_timers _ k

theorem countKey_armKey_le (s : Sys) (acc : List (Key × TimerCb))
    (u : String) (o' : Owner) (k : Key) :
    countKey (armKey s acc u o') k ≤ max (countKey acc k) 1 := by
  unfold armKey
  by_cases hd : getDraft s.draftByTask u o' = getSavedNote s.notesByTask u o'
  · rw [if_pos hd]
    omega
  · rw [if_neg hd]
    by_cases hk : k = (u, o')
    · subst hk
      rw [countKey_aset_self]
    · rw [countKey_aset_ne _ _ _ _ hk]
      omega

theorem countKey_armAll_fold_le (s : Sys) (tasks : List TaskRow)
    (acc : List (Key × TimerCb)) (k : Key) :
    countKey (tasks.foldl (fun acc task =>
        ALL_OWNERS.foldl (fun acc o => armKey s acc task.id o) acc) acc) k ≤
      max (countKey acc k) 1 := by
  induction tasks generalizing acc with
  | nil =>
    simp only [List.foldl_nil]
    omega
  | cons u rest ih =>
    rw [List.foldl_cons,
      show ALL_OWNERS.foldl (fun acc o => armKey s acc u.id o) acc =
        armKey s (armKey s acc u.id .ownerA) u.id .ownerB from rfl]
    have hstep := ih (armKey s (armKey s acc u.id .ownerA) u.id .ownerB)
    have h1 := countKey_armKey_le s (armKey s acc u.id .ownerA) u.id .ownerB k
    have h2 := countKey_armKey_le s acc u.id .ownerA k
    omega

theorem countKey_effectPass_timers_le (s : Sys) (k : Key) :
    countKey (effectPass s).timers k ≤ 1 := by
  have h := countKey_armAll_fold_le s s.tasks [] k
  have h0 : countKey ([] : List (Key × TimerCb)) k = 0 := rfl
  rw [h0] at h
  exact le_trans h (by omega)

/-- Firing the timer that an effect pass has just armed for a dirty,
not-in-flight key issues exactly one write, carrying the trimmed current
draft. -/
theorem timerFire_armed_dirty_writeLog (s : Sys) (k : Key)
    (htask : (s.tasks.any (fun task => task.id = k.1)) = true)
    (hd : getDraft s.draftByTask k.1 k.2 ≠ getSavedNote s.notesByTask k.1 k.2)
    (hfree : k ∉ s.inFlight) :
    (timerFire (effectPass s) k).writeLog =
      s.writeLog ++ [(k, jsTrim (getDraft s.draftByTask k.1 k.2))] := by
  have hcell := aget_effectPass_timers s k
  rw [if_pos ⟨htask, hd⟩] at hcell
  rw [timerFire_some (effectPass s) k _ hcell ⟨rfl, rfl⟩]
  have hd' : getDraft (effectPass s).draftByTask k.1 k.2 ≠
      getSavedNote (effectPass s).notesByTask k.1 k.2 := hd
  rw [if_pos hd']
  rw [saveNoteBegin_not_inFlight
    { effectPass s with
        timers := (effectPass s).timers.filter (fun p => p.1 ≠ k) }
    k.1 k.2 _ hfree]
  rfl

/-- Firing the timer armed by a keystroke that left the key dirty issues
exactly one write, carrying the trimmed text of that keystroke. -/
theorem timerFire_editDraft_writeLog (s : Sys) (t : String) (o : Owner)
    (x : String) (htask : (s.tasks.any (fun task => task.id = t)) = true)
    (hd : x ≠ getSavedNote s.notesByTask t o)
    (hfree : ((t, o) : Key) ∉ s.inFlight) :
    (timerFire (editDraft s t o x) (t, o)).writeLog =
      s.writeLog ++ [((t, o), jsTrim x)] := by
  have hgd : getDraft (aset s.draftByTask t
      (aset ((aget s.draftByTask t).getD []) o x)) t o = x :=
    getDraft_editDraft_self s t o x
  have harm := timerFire_armed_dirty_writeLog
      { s with
        draftByTask :=
          aset s.draftByTask t (aset ((aget s.draftByTask t).getD []) o x) }
      (t, o) htask (by dsimp only; rw [hgd]; exact hd) hfree
  dsimp only at harm
  rw [hgd] at harm
  exact harm

/-! ## Claim theorems -/

/-- **C10**: Hydrating the note cache with an empty set of visible task
ids resets both the note cache and the draft cache to empty maps without
performing any fetch (for every possible fetch result `rows`, the result
is the same empty pair and the fetch-reached flag is false), so no stale
entries from a previously selected week survive in either cache. -/
theorem hydration_empty_resets (rows : List TaskNoteRow) :
    loadNotesForTasks [] rows = ⟨[], [], false⟩ := rfl

/-- **C8**, counterexample: a pushed note-change event whose task id is
the empty string is ignored even when the empty string belongs to the
visible task-id set, because `if (taskId && …)` treats `""` as falsy —
so "rehydrates if and only if the event's task id belongs to the visible
set" fails at this input. -/
theorem note_event_empty_id_counterexample :
    eventTaskId ⟨some ⟨"n1", "", Owner.ownerA, "x", "ts"⟩, none⟩ = some "" ∧
    ("" ∈ [""]) ∧
    noteEventTriggers ⟨some ⟨"n1", "", Owner.ownerA, "x", "ts"⟩, none⟩ [""]
      = false := by
  decide

/-- **C8** (amended: the event's task id must also be non-empty, since the
handler's truthiness guard drops the empty string): a pushed note-change
event triggers a rehydration of the visible note set iff its task id is
present, non-empty, and belongs to the visible task-id set; otherwise the
note and draft caches are left untouched, and when it does trigger, the
result is exactly the hydration of the visible set. -/
theorem note_event_scoped_to_visible (p : NotePayload)
    (taskIdSet : List String) (notes : NotesMap) (drafts : DraftMap)
    (rows : List TaskNoteRow) :
    (noteEventTriggers p taskIdSet = true ↔
      ∃ tid, eventTaskId p = some tid ∧ tid ≠ "" ∧ tid ∈ taskIdSet) ∧
    (noteEventTriggers p taskIdSet = false →
      handleNoteEvent p taskIdSet notes drafts rows = (notes, drafts, false)) ∧
    (noteEventTriggers p taskIdSet = true →
      handleNoteEvent p taskIdSet notes drafts rows =
        ((loadNotesForTasks taskIdSet rows).notes,
         (loadNotesForTasks taskIdSet rows).drafts, true)) := by
  refine ⟨?_, ?_, ?_⟩
  · unfold noteEventTriggers
    cases he : eventTaskId p with
    | none => simp
    | some tid => simp [List.contains]
  · intro h
    unfold handleNoteEvent
    rw [h]
    rfl
  · intro h
    unfold handleNoteEvent
    rw [h]
    rfl

/-- Witness for `note_event_scoped_to_visible`: an event for task `"t9"`,
outside the visible set `["t1"]`, leaves the caches untouched. -/
theorem note_event_scoped_to_visible_witness :
    handleNoteEvent ⟨some ⟨"n1", "t9", Owner.ownerA, "x", "ts"⟩, none⟩
        ["t1"] [] [] [] = ([], [], false) :=
  (note_event_scoped_to_visible
      ⟨some ⟨"n1", "t9", Owner.ownerA, "x", "ts"⟩, none⟩
      ["t1"] [] [] []).2.1 (by decide)

/-- **C9**, counterexample: with week `0` selected (a selected week, just
with number zero) and a non-blank description, `addTask` is a no-op
because `if (!selectedWeek)` treats the number `0` as falsy — so "no-op
only when no week is selected or the description trims empty" fails at
this input. -/
theorem addTask_week_zero_counterexample :
    (⟨some 0, Owner.ownerA, "hello", [], ""⟩ : PageState).selectedWeek
        ≠ none ∧
    jsTrim "hello" ≠ "" ∧
    addTask ⟨some 0, Owner.ownerA, "hello", [], ""⟩ true =
      (⟨some 0, Owner.ownerA, "hello", [], ""⟩, none) := by
  decide

/-- **C9** (amended: selecting week number `0` is also rejected, since JS
falsiness treats it like no selection): `addTask` is a no-op — it issues
no insert and changes no state — when no week is selected, when the
selected week number is `0`, or when the description trims to the empty
string; otherwise it issues exactly one insert carrying the selected
week, the chosen owner, the trimmed description and status Pending, and
never appends the new task to the local task list. -/
theorem addTask_rejects_and_inserts (st : PageState) (insertOk : Bool) :
    ((st.selectedWeek = none ∨ st.selectedWeek = some 0 ∨
        jsTrim st.newDesc = "") → addTask st insertOk = (st, none)) ∧
    (∀ w : Int, st.selectedWeek = some w → w ≠ 0 → jsTrim st.newDesc ≠ "" →
      (addTask st insertOk).2 =
        some ⟨w, st.newOwner, jsTrim st.newDesc, Status.pending⟩ ∧
      (addTask st insertOk).1.tasks = st.tasks) := by
  constructor
  · intro h
    unfold addTask weekTruthy
    rcases h with h | h | h
    · rw [h]
      rfl
    · rw [h]
      rfl
    · cases hw : st.selectedWeek with
      | none => rfl
      | some w =>
        by_cases h0 : w = 0
        · subst h0
          rfl
        · simp only [h0, bne_iff_ne, ne_eq, not_false_eq_true,
            Bool.not_true, Bool.false_eq_true, if_false, h, if_pos rfl]
          simp [h]
  · intro w hw h0 hne
    unfold addTask weekTruthy
    rw [hw]
    have hb : (w != 0) = true := by simpa using h0
    simp only [hb, Bool.not_true, Bool.false_eq_true, if_false, if_neg hne]
    cases insertOk <;> simp

/-- Witness for `addTask_rejects_and_inserts`: with week 3 selected and
description `" Call clinic "`, exactly one Pending insert with the
trimmed description is issued and the local task list stays empty. -/
theorem addTask_rejects_and_inserts_witness :
    (addTask ⟨some 3, Owner.ownerA, " Call clinic ", [], ""⟩ true).2 =
        some ⟨3, Owner.ownerA, "Call clinic", Status.pending⟩ ∧
    (addTask ⟨some 3, Owner.ownerA, " Call clinic ", [], ""⟩ true).1.tasks
        = [] := by
  have h := (addTask_rejects_and_inserts
      ⟨some 3, Owner.ownerA, " Call clinic ", [], ""⟩ true).2 3 rfl
      (by decide) (by decide)
  exact ⟨by rw [h.1]; decide, h.2⟩

/-- **C2**: At most one note save is in flight per (task id, owner) key:
in every state satisfying the machine invariant the in-flight upserts
have pairwise-distinct keys, a save request (timer- or user-triggered
requests both enter `saveNote`) issued while the key is already in flight
leaves everything but the error banner untouched — dropped, not queued —
and every event-loop step preserves the invariant, so no two concurrent
upserts for the same key ever occur. -/
theorem save_mutual_exclusion (s : Sys) (hinv : SysInv s) :
    (s.pending.map (·.1)).Nodup ∧
    (∀ taskId o ov, ((taskId, o) : Key) ∈ s.inFlight →
      saveNoteBegin s taskId o ov = { s with errorMsg := "" }) ∧
    (∀ s', Step s s' → SysInv s') :=
  ⟨hinv.pending_nodup,
   fun taskId o ov h => saveNoteBegin_inFlight s taskId o ov h,
   fun s' hs => sysInv_step s s' hinv hs⟩

/-- Witness for `save_mutual_exclusion`: a second save request for a key
already in flight changes nothing but the error banner. -/
theorem save_mutual_exclusion_witness :
    saveNoteBegin (saveNoteBegin (initSys [] [] [] []) "t1" Owner.ownerA
        (some "x")) "t1" Owner.ownerA (some "y") =
      { saveNoteBegin (initSys [] [] [] []) "t1" Owner.ownerA (some "x")
          with errorMsg := "" } :=
  (save_mutual_exclusion _
      (sysInv_saveNoteBegin _ _ _ _ (sysInv_initSys [] [] [] []))).2.1
    "t1" Owner.ownerA (some "y") (by decide)

/-- **C3**: When a debounce timer for a key fires, the values compared
are the current draft and saved note for that key (the closure's captured
caches always coincide with the current ones, by the machine invariant):
the fire issues exactly one save — with the current draft — iff they
differ and the key is not in flight, and when draft and saved have become
equal in the interim the fire changes nothing but removing the spent
timer, issuing no write. -/
theorem timer_fire_checks_current_values (s : Sys) (hinv : SysInv s)
    (k : Key) (cb : TimerCb) (ht : aget s.timers k = some cb) :
    (timerFire s k).writeLog =
      s.writeLog ++
        (if getDraft s.draftByTask k.1 k.2 ≠ getSavedNote s.notesByTask k.1 k.2
            ∧ k ∉ s.inFlight
         then [(k, jsTrim (getDraft s.draftByTask k.1 k.2))] else []) ∧
    (getDraft s.draftByTask k.1 k.2 = getSavedNote s.notesByTask k.1 k.2 →
      timerFire s k =
        { s with timers := s.timers.filter (fun p => p.1 ≠ k) }) := by
  have hc := hinv.timers_current k cb ht
  rw [timerFire_some s k cb ht hc]
  by_cases hd : getDraft s.draftByTask k.1 k.2 = getSavedNote s.notesByTask k.1 k.2
  · rw [if_neg (not_not_intro hd)]
    constructor
    · rw [if_neg (by simp [hd])]
      simp
    · intro _
      rfl
  · rw [if_pos hd]
    constructor
    · by_cases hf : k ∈ s.inFlight
      · rw [saveNoteBegin_inFlight
            { s with timers := s.timers.filter (fun p => p.1 ≠ k) }
            k.1 k.2 _ hf]
        rw [if_neg (by simp [hf])]
        simp
      · rw [saveNoteBegin_not_inFlight
            { s with timers := s.timers.filter (fun p => p.1 ≠ k) }
            k.1 k.2 _ hf]
        rw [if_pos ⟨hd, hf⟩]
        rfl
    · intro he
      exact absurd he hd

/-- Witness for `timer_fire_checks_current_values`: after typing
`"En route"` the armed timer fires and issues the single trimmed write. -/
theorem timer_fire_checks_current_values_witness :
    (timerFire
        (editDraft (initSys [⟨"t1", 1, Owner.ownerA, "d", Status.pending⟩]
          [] [] []) "t1" Owner.ownerA "En route") ("t1", Owner.ownerA)).writeLog
      = [(("t1", Owner.ownerA), "En route")] := by
  have h := (timer_fire_checks_current_values
      (editDraft (initSys [⟨"t1", 1, Owner.ownerA, "d", Status.pending⟩]
        [] [] []) "t1" Owner.ownerA "En route")
      (sysInv_editDraft _ _ _ _ (sysInv_initSys _ _ _ _))
      ("t1", Owner.ownerA)
      ⟨(editDraft (initSys [⟨"t1", 1, Owner.ownerA, "d", Status.pending⟩]
          [] [] []) "t1" Owner.ownerA "En route").draftByTask,
       (editDraft (initSys [⟨"t1", 1, Owner.ownerA, "d", Status.pending⟩]
          [] [] []) "t1" Owner.ownerA "En route").notesByTask⟩
      (by decide)).1
  rw [h]
  decide

/-- **C4**: When an upsert fails, neither the note cache nor the draft
cache (nor the store) is mutated, no further write is logged by the
failure itself, the key's saving flag is cleared and its in-flight marker
released, so draft and saved stay divergent; and the next debounce cycle
(the autosave effect re-running while the key is still dirty) re-arms the
key and its fire re-attempts the save with the current draft. -/
theorem save_failure_preserves_dirty_state (s : Sys) (k : Key)
    (note : String) (now : String) (hinv : SysInv s)
    (_hp : (k, note) ∈ s.pending) :
    (saveNoteComplete s k note false now).notesByTask = s.notesByTask ∧
    (saveNoteComplete s k note false now).draftByTask = s.draftByTask ∧
    (saveNoteComplete s k note false now).store = s.store ∧
    (saveNoteComplete s k note false now).writeLog = s.writeLog ∧
    aget (saveNoteComplete s k note false now).savingKeys k = some false ∧
    k ∉ (saveNoteComplete s k note false now).inFlight ∧
    (getDraft s.draftByTask k.1 k.2 ≠ getSavedNote s.notesByTask k.1 k.2 →
      getDraft (saveNoteComplete s k note false now).draftByTask k.1 k.2 ≠
        getSavedNote (saveNoteComplete s k note false now).notesByTask
          k.1 k.2) ∧
    ((s.tasks.any (fun task => task.id = k.1)) = true →
      getDraft s.draftByTask k.1 k.2 ≠ getSavedNote s.notesByTask k.1 k.2 →
      (timerFire (effectPass (saveNoteComplete s k note false now))
          k).writeLog =
        s.writeLog ++ [(k, jsTrim (getDraft s.draftByTask k.1 k.2))]) := by
  have hkmem : k ∉ s.inFlight.erase k := fun hmem =>
    ((hinv.inFlight_nodup.mem_erase_iff).mp hmem).1 rfl
  refine ⟨rfl, rfl, rfl, rfl, aget_aset_self _ _ _, hkmem, fun hd => hd, ?_⟩
  intro htask hd
  exact timerFire_armed_dirty_writeLog (saveNoteComplete s k note false now)
    k htask hd hkmem

/-- Witness for `save_failure_preserves_dirty_state`: a failed save of
`"En route"` keeps the flag cleared and the next cycle rewrites it. -/
theorem save_failure_preserves_dirty_state_witness :
    aget (saveNoteComplete
        (timerFire (editDraft
          (initSys [⟨"t1", 1, Owner.ownerA, "d", Status.pending⟩] [] [] [])
          "t1" Owner.ownerA "En route") ("t1", Owner.ownerA))
        ("t1", Owner.ownerA) "En route" false "T").savingKeys
      ("t1", Owner.ownerA) = some false ∧
    (timerFire (effectPass (saveNoteComplete
        (timerFire (editDraft
          (initSys [⟨"t1", 1, Owner.ownerA, "d", Status.pending⟩] [] [] [])
          "t1" Owner.ownerA "En route") ("t1", Owner.ownerA))
        ("t1", Owner.ownerA) "En route" false "T"))
        ("t1", Owner.ownerA)).writeLog =
      [(("t1", Owner.ownerA), "En route"), (("t1", Owner.ownerA), "En route")]
    := by
  have h := save_failure_preserves_dirty_state
      (timerFire (editDraft
        (initSys [⟨"t1", 1, Owner.ownerA, "d", Status.pending⟩] [] [] [])
        "t1" Owner.ownerA "En route") ("t1", Owner.ownerA))
      ("t1", Owner.ownerA) "En route" "T"
      (sysInv_timerFire _ _ (sysInv_editDraft _ _ _ _ (sysInv_initSys _ _ _ _)))
      (by decide)
  refine ⟨h.2.2.2.2.1, ?_⟩
  rw [h.2.2.2.2.2.2.2 (by decide) (by decide)]
  decide

/-- **C5**: On a successful save, the note cache entry for exactly the
saved key is replaced in place by the upserted text with the fresh
completion-time timestamp (computed locally — no refetch), every other
key's cell is untouched, the per-key saving flag is cleared, the store
ends with exactly one row for the key (the upsert keyed by
(task id, owner) updates in place and never creates a second row, leaving
other keys' rows alone), and the stored text is the upserted one — the
empty trimmed string included, which clears the note. -/
theorem save_success_updates_cache_in_place (s : Sys) (k : Key)
    (note : String) (now : String) (_hp : (k, note) ∈ s.pending)
    (hstore : countStoreKey s.store k ≤ 1) :
    getCell (saveNoteComplete s k note true now).notesByTask k.1 k.2 =
      some ⟨note, some now, none⟩ ∧
    (∀ t o, (t, o) ≠ k →
      getCell (saveNoteComplete s k note true now).notesByTask t o =
        getCell s.notesByTask t o) ∧
    aget (saveNoteComplete s k note true now).savingKeys k = some false ∧
    countStoreKey (saveNoteComplete s k note true now).store k = 1 ∧
    storeLookup (saveNoteComplete s k note true now).store k = some note ∧
    (∀ k', k' ≠ k →
      storeLookup (saveNoteComplete s k note true now).store k' =
        storeLookup s.store k') ∧
    (saveNoteComplete s k note true now).draftByTask = s.draftByTask := by
  refine ⟨?_, ?_, aget_aset_self _ _ _, ?_, ?_, ?_, rfl⟩
  · show getCell (optimisticUpdate s.notesByTask k.1 k.2 note now) k.1 k.2 = _
    rw [optimisticUpdate, getCell, aget_aset_self, Option.getD_some,
      aget_aset_self]
  · intro t o hne
    show getCell (optimisticUpdate s.notesByTask k.1 k.2 note now) t o = _
    rw [optimisticUpdate, getCell, getCell]
    by_cases ht : t = k.1
    · subst ht
      have ho : o ≠ k.2 := fun he => hne (by rw [he])
      rw [aget_aset_self, Option.getD_some, aget_aset_ne _ _ _ _ ho]
    · rw [aget_aset_ne _ _ _ _ ht]
  · show countStoreKey (upsertStore s.store k.1 k.2 note) k = 1
    rw [countStoreKey, upsertStore, countKey_aset_self,
      show ((k.1, k.2) : Key) = k from rfl]
    rw [countStoreKey] at hstore
    omega
  · show storeLookup (upsertStore s.store k.1 k.2 note) k = some note
    rw [storeLookup, upsertStore, aget_aset_self]
  · intro k' hne
    show storeLookup (upsertStore s.store k.1 k.2 note) k' = _
    rw [storeLookup, upsertStore, aget_aset_ne _ _ _ _ hne, storeLookup]

/-- Witness for `save_success_updates_cache_in_place`: an empty-string
save over an existing stored row leaves exactly one row for the key,
now holding the empty note — saving the empty trimmed string clears the
note. -/
theorem save_success_updates_cache_in_place_witness :
    countStoreKey (saveNoteComplete
        (saveNoteBegin (initSys [⟨"t1", 1, Owner.ownerA, "d", Status.pending⟩]
          [] [] [(("t1", Owner.ownerA), "old")]) "t1" Owner.ownerA (some ""))
        ("t1", Owner.ownerA) "" true "T").store ("t1", Owner.ownerA) = 1 ∧
    storeLookup (saveNoteComplete
        (saveNoteBegin (initSys [⟨"t1", 1, Owner.ownerA, "d", Status.pending⟩]
          [] [] [(("t1", Owner.ownerA), "old")]) "t1" Owner.ownerA (some ""))
        ("t1", Owner.ownerA) "" true "T").store ("t1", Owner.ownerA)
      = some "" ∧
    getCell (saveNoteComplete
        (saveNoteBegin (initSys [⟨"t1", 1, Owner.ownerA, "d", Status.pending⟩]
          [] [] [(("t1", Owner.ownerA), "old")]) "t1" Owner.ownerA (some ""))
        ("t1", Owner.ownerA) "" true "T").notesByTask "t1" Owner.ownerA
      = some ⟨"", some "T", none⟩ := by
  have h := save_success_updates_cache_in_place
      (saveNoteBegin (initSys [⟨"t1", 1, Owner.ownerA, "d", Status.pending⟩]
        [] [] [(("t1", Owner.ownerA), "old")]) "t1" Owner.ownerA (some ""))
      ("t1", Owner.ownerA) "" "T" (by decide) (by decide)
  exact ⟨h.2.2.2.1, h.2.2.2.2.1, h.1⟩

/-- **C1**, counterexample: two rapid edits ending in the draft `"x "`;
the debounce fires once and the single write carries `"x"` — the trimmed
value, not the final draft value `"x "` — so "exactly one write, carrying
the final draft value" fails at this input. -/
theorem debounce_final_value_counterexample :
    (timerFire (runEdits
        (initSys [⟨"t1", 1, Owner.ownerA, "d", Status.pending⟩] [] [] [])
        "t1" Owner.ownerA ["a", "x "]) ("t1", Owner.ownerA)).writeLog =
      [(("t1", Owner.ownerA), "x")] ∧
    ("x" : String) ≠ "x " := by
  decide

/-- **C1** (amended: the single write carries the *trimmed* final draft
value, since `saveNote` trims before upserting): for a key shown on the
dashboard whose final draft differs from its cached saved note, a run of
rapid edits — consecutive keystrokes with no timer fire in between —
issues no write by itself; after the run exactly one debounce timer is
armed for the key (each keystroke's effect pass cancelled and replaced
the previous one, leaving the latest captures); and when that timer fires
it issues exactly one write, carrying the trimmed final draft value. -/
theorem debounce_coalesces_to_one_trimmed_write (s : Sys) (taskId : String)
    (o : Owner) (texts : List String) (hne : texts ≠ [])
    (htask : (s.tasks.any (fun task => task.id = taskId)) = true)
    (hdirty : texts.getLast hne ≠ getSavedNote s.notesByTask taskId o)
    (hfree : ((taskId, o) : Key) ∉ s.inFlight) :
    (runEdits s taskId o texts).writeLog = s.writeLog ∧
    countKey (runEdits s taskId o texts).timers (taskId, o) = 1 ∧
    aget (runEdits s taskId o texts).timers (taskId, o) =
      some ⟨(runEdits s taskId o texts).draftByTask,
            (runEdits s taskId o texts).notesByTask⟩ ∧
    getDraft (runEdits s taskId o texts).draftByTask taskId o =
      texts.getLast hne ∧
    (timerFire (runEdits s taskId o texts) (taskId, o)).writeLog =
      s.writeLog ++ [((taskId, o), jsTrim (texts.getLast hne))] := by
  have hpresPrev := runEdits_preserves s taskId o texts.dropLast
  rw [runEdits_ne_nil s taskId o texts hne]
  have htask' : ((runEdits s taskId o texts.dropLast).tasks.any
      (fun task => task.id = taskId)) = true := by
    rw [hpresPrev.2.2.2.2.2]
    exact htask
  have hdirty' : texts.getLast hne ≠
      getSavedNote (runEdits s taskId o texts.dropLast).notesByTask taskId o
      := by
    rw [hpresPrev.2.1]
    exact hdirty
  have hfree' : ((taskId, o) : Key) ∉
      (runEdits s taskId o texts.dropLast).inFlight := by
    rw [hpresPrev.2.2.1]
    exact hfree
  have hcell := aget_timers_editDraft (runEdits s taskId o texts.dropLast)
      taskId o (texts.getLast hne) (taskId, o)
  rw [if_pos ⟨htask', by
      dsimp only
      rw [getDraft_editDraft_self]
      exact hdirty'⟩] at hcell
  refine ⟨hpresPrev.1, ?_, ?_, getDraft_editDraft_self _ _ _ _, ?_⟩
  · have hle := countKey_effectPass_timers_le
      { runEdits s taskId o texts.dropLast with
        draftByTask :=
          aset (runEdits s taskId o texts.dropLast).draftByTask taskId
            (aset ((aget (runEdits s taskId o texts.dropLast).draftByTask
              taskId).getD []) o (texts.getLast hne)) }
      (taskId, o)
    have hpos := countKey_pos_of_aget _ _ _ hcell
    exact le_antisymm hle hpos
  · rw [hcell]
    rfl
  · rw [timerFire_editDraft_writeLog _ _ _ _ htask' hdirty' hfree',
      hpresPrev.1]

/-- Witness for `debounce_coalesces_to_one_trimmed_write`: two
keystrokes, then the fire writes the final text once. -/
theorem debounce_coalesces_to_one_trimmed_write_witness :
    (timerFire (runEdits
        (initSys [⟨"t1", 1, Owner.ownerA, "d", Status.pending⟩] [] [] [])
        "t1" Owner.ownerA ["E", "En route"]) ("t1", Owner.ownerA)).writeLog =
      [(("t1", Owner.ownerA), "En route")] := by
  have h := (debounce_coalesces_to_one_trimmed_write
      (initSys [⟨"t1", 1, Owner.ownerA, "d", Status.pending⟩] [] [] [])
      "t1" Owner.ownerA ["E", "En route"] (by decide) (by decide) (by decide)
      (by decide)).2.2.2.2
  rw [h]
  decide

/-- **C6**: After hydration over a non-empty visible task-id set with the
fetched rows key-distinct (the store's (task_id, owner) uniqueness
constraint), the note cache has exactly one entry per visible task id —
none for any other id — with exactly one inner entry per owner; each pair's
cell is the fetched row when one exists and the empty default (no
timestamp) otherwise; and the draft cache equals the note cache's text at
every pair, so no pair is dirty immediately after hydration. -/
theorem hydration_complete_and_mirrored (ids : List String)
    (rows : List TaskNoteRow) (hne : ids ≠ [])
    (hdist : (rows.map (fun r => (r.task_id, r.owner))).Nodup) :
    (∀ t ∈ ids, countKey (loadNotesForTasks ids rows).notes t = 1 ∧
      ∀ o, countKey ((aget (loadNotesForTasks ids rows).notes t).getD []) o
        = 1) ∧
    (∀ t, t ∉ ids → countKey (loadNotesForTasks ids rows).notes t = 0) ∧
    (∀ t ∈ ids, ∀ o,
      getCell (loadNotesForTasks ids rows).notes t o =
        some (match rows.find? (fun r => r.task_id = t ∧ r.owner = o) with
          | some r => ⟨r.note, some r.updated_at, some r.id⟩
          | none => ⟨"", none, none⟩)) ∧
    (∀ t o, getDraft (loadNotesForTasks ids rows).drafts t o =
      getSavedNote (loadNotesForTasks ids rows).notes t o) := by
  simp only [loadNotesForTasks, if_neg hne]
  have hacc := hydAcc_applyNoteRows ids (initNoteDefaults ids) rows
      (hydAcc_initNoteDefaults ids)
  refine ⟨?_, ?_, ?_, ?_⟩
  · intro t ht
    refine ⟨?_, hacc.inner_count t ht⟩
    rw [hacc.outer_count t]
    simp [ht]
  · intro t ht
    rw [hacc.outer_count t]
    simp [ht]
  · intro t ht o
    have hp : (aget (initNoteDefaults ids).1 t).isSome = true :=
      ((hydAcc_initNoteDefaults ids).pres t).mpr ht
    rw [getCell_applyNoteRows rows (initNoteDefaults ids) t o hp hdist]
    cases hf : rows.find? (fun r => r.task_id = t ∧ r.owner = o) with
    | some r => rfl
    | none =>
      rw [getCell, initNoteDefaults, initDefaults_fold_notes, if_pos ht]
      simp only [Option.getD_some]
      cases o <;> rfl
  · exact mirror_applyNoteRows rows (initNoteDefaults ids)
      (mirror_initNoteDefaults ids)

/-- Witness for `hydration_complete_and_mirrored`: one visible task, one
fetched row for owner A; owner A's cell carries the row, owner B's the
empty default, and drafts mirror both. -/
theorem hydration_complete_and_mirrored_witness :
    getCell (loadNotesForTasks ["t1"]
        [⟨"n1", "t1", Owner.ownerA, "hi", "ts"⟩]).notes "t1" Owner.ownerA =
      some ⟨"hi", some "ts", some "n1"⟩ ∧
    getCell (loadNotesForTasks ["t1"]
        [⟨"n1", "t1", Owner.ownerA, "hi", "ts"⟩]).notes "t1" Owner.ownerB =
      some ⟨"", none, none⟩ ∧
    getDraft (loadNotesForTasks ["t1"]
        [⟨"n1", "t1", Owner.ownerA, "hi", "ts"⟩]).drafts "t1" Owner.ownerA =
      "hi" := by
  have h := hydration_complete_and_mirrored ["t1"]
      [⟨"n1", "t1", Owner.ownerA, "hi", "ts"⟩] (by decide) (by decide)
  refine ⟨?_, ?_, ?_⟩
  · rw [h.2.2.1 "t1" (by decide) Owner.ownerA]
    decide
  · rw [h.2.2.1 "t1" (by decide) Owner.ownerB]
    decide
  · rw [h.2.2.2 "t1" Owner.ownerA]
    rw [getSavedNote, h.2.2.1 "t1" (by decide) Owner.ownerA]
    decide

/-- **C7**, counterexample: save the draft `"x "` (trailing blank) for a
key; the upsert succeeds with the trimmed `"x"`. Afterwards the draft
`"x "` does not equal the cached saved note `"x"`, and the autosave
effect immediately arms another timer for the key — so "after a
successful save the draft equals the cached saved note, and immediately
saving the same draft a second time is a no-op" fails at this input. -/
theorem idempotence_counterexample :
    ((("t1", Owner.ownerA), "x") ∈ (timerFire (editDraft
        (initSys [⟨"t1", 1, Owner.ownerA, "d", Status.pending⟩] [] [] [])
        "t1" Owner.ownerA "x ") ("t1", Owner.ownerA)).pending) ∧
    getDraft (saveNoteComplete (timerFire (editDraft
          (initSys [⟨"t1", 1, Owner.ownerA, "d", Status.pending⟩] [] [] [])
          "t1" Owner.ownerA "x ") ("t1", Owner.ownerA))
        ("t1", Owner.ownerA) "x" true "T").draftByTask "t1" Owner.ownerA ≠
      getSavedNote (saveNoteComplete (timerFire (editDraft
          (initSys [⟨"t1", 1, Owner.ownerA, "d", Status.pending⟩] [] [] [])
          "t1" Owner.ownerA "x ") ("t1", Owner.ownerA))
        ("t1", Owner.ownerA) "x" true "T").notesByTask "t1" Owner.ownerA ∧
    aget (saveNoteComplete (timerFire (editDraft
          (initSys [⟨"t1", 1, Owner.ownerA, "d", Status.pending⟩] [] [] [])
          "t1" Owner.ownerA "x ") ("t1", Owner.ownerA))
        ("t1", Owner.ownerA) "x" true "T").timers ("t1", Owner.ownerA) ≠
      none := by
  decide

/-- **C7** (amended: after a successful save the cached saved note equals
the *trimmed* draft that was submitted; when the draft equals its own
trim, draft and saved coincide and the next autosave pass arms no timer
for the key — the second save is a no-op — and in every case the store
keeps exactly one row for the key, a repeated upsert included). -/
theorem save_idempotent_after_trim (s : Sys) (k : Key) (draftVal : String)
    (now : String) (_hp : (k, jsTrim draftVal) ∈ s.pending)
    (hd : getDraft s.draftByTask k.1 k.2 = draftVal)
    (hstore : countStoreKey s.store k ≤ 1) :
    getSavedNote
        (saveNoteComplete s k (jsTrim draftVal) true now).notesByTask k.1 k.2
      = jsTrim draftVal ∧
    (jsTrim draftVal = draftVal →
      getDraft (saveNoteComplete s k (jsTrim draftVal) true now).draftByTask
          k.1 k.2 =
        getSavedNote
          (saveNoteComplete s k (jsTrim draftVal) true now).notesByTask
          k.1 k.2 ∧
      aget (saveNoteComplete s k (jsTrim draftVal) true now).timers k
        = none) ∧
    countStoreKey (saveNoteComplete s k (jsTrim draftVal) true now).store k
      = 1 ∧
    (∀ note2, countStoreKey
        (upsertStore (saveNoteComplete s k (jsTrim draftVal) true now).store
          k.1 k.2 note2) k = 1) := by
  have hsaved : getSavedNote
      (saveNoteComplete s k (jsTrim draftVal) true now).notesByTask k.1 k.2
      = jsTrim draftVal := by
    show getSavedNote
      (optimisticUpdate s.notesByTask k.1 k.2 (jsTrim draftVal) now) k.1 k.2
      = _
    rw [getSavedNote, getCell, optimisticUpdate, aget_aset_self,
      Option.getD_some, aget_aset_self]
    rfl
  have hcount : countStoreKey
      (saveNoteComplete s k (jsTrim draftVal) true now).store k = 1 := by
    show countStoreKey (upsertStore s.store k.1 k.2 (jsTrim draftVal)) k = 1
    rw [countStoreKey, upsertStore, countKey_aset_self,
      show ((k.1, k.2) : Key) = k from rfl]
    rw [countStoreKey] at hstore
    omega
  refine ⟨hsaved, ?_, hcount, ?_⟩
  · intro htrim
    have hdr : getDraft
        (saveNoteComplete s k (jsTrim draftVal) true now).draftByTask
        k.1 k.2 = draftVal := hd
    refine ⟨by rw [hdr, hsaved, htrim], ?_⟩
    have hcell := aget_effectPass_timers
        { s with
            pending := s.pending.erase (k, jsTrim draftVal),
            inFlight := s.inFlight.erase k,
            savingKeys := aset s.savingKeys k false,
            store := upsertStore s.store k.1 k.2 (jsTrim draftVal),
            notesByTask :=
              optimisticUpdate s.notesByTask k.1 k.2 (jsTrim draftVal) now }
        k
    rw [if_neg (by
      dsimp only
      intro hcond
      apply hcond.2
      rw [hd]
      show _ = getSavedNote
        (optimisticUpdate s.notesByTask k.1 k.2 (jsTrim draftVal) now) k.1 k.2
      rw [getSavedNote, getCell, optimisticUpdate, aget_aset_self,
        Option.getD_some, aget_aset_self]
      show draftVal = jsTrim draftVal
      exact htrim.symm)] at hcell
    exact hcell
  · intro note2
    rw [countStoreKey, upsertStore, countKey_aset_self,
      show ((k.1, k.2) : Key) = k from rfl]
    rw [countStoreKey] at hcount
    omega

/-- Witness for `save_idempotent_after_trim`: a trim-invariant draft
`"done"`; after its successful save the key is clean and no timer is
armed, and further upserts keep one stored row. -/
theorem save_idempotent_after_trim_witness :
    getSavedNote (saveNoteComplete
        (timerFire (editDraft
          (initSys [⟨"t1", 1, Owner.ownerA, "d", Status.pending⟩] [] [] [])
          "t1" Owner.ownerA "done") ("t1", Owner.ownerA))
        ("t1", Owner.ownerA) "done" true "T").notesByTask "t1" Owner.ownerA
      = "done" ∧
    aget (saveNoteComplete
        (timerFire (editDraft
          (initSys [⟨"t1", 1, Owner.ownerA, "d", Status.pending⟩] [] [] [])
          "t1" Owner.ownerA "done") ("t1", Owner.ownerA))
        ("t1", Owner.ownerA) "done" true "T").timers ("t1", Owner.ownerA)
      = none := by
  have h := save_idempotent_after_trim
      (timerFire (editDraft
        (initSys [⟨"t1", 1, Owner.ownerA, "d", Status.pending⟩] [] [] [])
        "t1" Owner.ownerA "done") ("t1", Owner.ownerA))
      ("t1", Owner.ownerA) "done" "T" (by decide) (by decide) (by decide)
  exact ⟨h.1, (h.2.1 (by decide)).2⟩

end Dashboard
